import Mathlib

/-!
Shallow embedding of the statevector simulation engine of the repository
(src/simulator/fpga_simulator.py, src/simulator/quantum_gates.py,
src/simulator/circuit.py).

Statevectors of an n-qubit engine are modelled as functions from basis-state
indices to complex amplitudes; only the indices below 2 ^ n are meaningful.
Gate matrices are modelled as entry functions together with their dimension
(the shape of the numpy array in the source).  Python exceptions are modelled
by an Except result: an error value means the exception was raised and
self.statevector was never reassigned (in the source every assignment to the
amplitude array happens after all checks).  The single random draw that
measure takes from np.random.random() is modelled as an explicit argument
u, one per call.
-/

/-- Error kinds of the simulator, following the spec's taxonomy for the
ValueError raises in the source: the gate-size check in apply_gate raises the
dimension error, the qubit-range checks in measure and in
QuantumCircuit.apply raise the index error. -/
inductive SimError where
  | dimensionMismatch : SimError
  | invalidQubitIndex : SimError
deriving DecidableEq

/-- Initial statevector: amplitude 1 at basis state 0, all others 0
(FPGASimulator.__init__ and reset). -/
def initState (_n : ℕ) : ℕ → ℂ :=
  fun i => if i = 0 then 1 else 0

/-- Bitmask of the affected qubits: affected_mask |= (1 << q) for q in
qubit_indices (fpga_simulator.py line 113-115). -/
def affectedMask (qs : List ℕ) : ℕ :=
  qs.foldl (fun m q => m ||| (1 <<< q)) 0

/-- Python `x & ~m` on a nonnegative integer: clear the bits of m inside x.
Written with xor so that the kernel can evaluate it on literals. -/
def clearMask (x m : ℕ) : ℕ :=
  x ^^^ (x &&& m)

/-- The packed sub-index of the affected qubits: for q in the given list (the
source iterates over sorted(qubit_indices)), bit_pos-th bit of the result is
bit q of i, with bit_pos counting up from 0 along the list
(fpga_simulator.py lines 133-141). -/
def extractBits : List ℕ → ℕ → ℕ
  | [], _ => 0
  | q :: rest, i => (if Nat.testBit i q then 1 else 0) + 2 * extractBits rest i

/-- Entry (out_idx, in_idx) of the full 2^n-dimensional gate built by
_expand_gate_to_full_space: zero unless the two indices agree outside the
affected mask, otherwise the gate entry at the packed sub-indices taken along
sorted(qubit_indices). -/
def expandGate (g : ℕ → ℕ → ℂ) (qs : List ℕ) : ℕ → ℕ → ℂ :=
  fun outIdx inIdx =>
    if clearMask inIdx (affectedMask qs) = clearMask outIdx (affectedMask qs) then
      g (extractBits (List.insertionSort (fun a b => a ≤ b) qs) outIdx)
        (extractBits (List.insertionSort (fun a b => a ≤ b) qs) inIdx)
    else 0

/-- FPGASimulator.apply_gate: gateSize is gate_matrix.shape[0]; the number of
affected qubits is int(np.log2(gate_size)); a count mismatch raises before the
statevector is touched; otherwise the expanded full gate multiplies the
statevector. -/
noncomputable def applyGate (n gateSize : ℕ) (g : ℕ → ℕ → ℂ) (qs : List ℕ)
    (v : ℕ → ℂ) : Except SimError (ℕ → ℂ) :=
  if qs.length = Nat.log2 gateSize then
    Except.ok (fun outIdx => ∑ inIdx ∈ Finset.range (2 ^ n), expandGate g qs outIdx inIdx * v inIdx)
  else
    Except.error SimError.dimensionMismatch

/-- A recorded gate of the circuit layer: (matrix dimension, matrix entries,
qubit indices), modelling the (gate_matrix, qubit_list) pairs that
QuantumCircuit stores (the dimension is the shape the numpy array carries). -/
def GateOp : Type := ℕ × (ℕ → ℕ → ℂ) × List ℕ

/-- Replay a recorded gate sequence through apply_gate in insertion order,
starting from the given statevector; a raised exception aborts the replay
(QuantumCircuit.execute lines 132-134). -/
noncomputable def runGates (n : ℕ) (ops : List GateOp) (v : ℕ → ℂ) :
    Except SimError (ℕ → ℂ) :=
  ops.foldl (fun acc op => acc.bind fun s => applyGate n op.1 op.2.1 op.2.2 s) (Except.ok v)

/-- QuantumCircuit.execute(reset): reset re-initializes the simulator to the
all-zero state before replaying; otherwise the replay starts from the
simulator's current statevector. The default argument in the source is
reset=True. -/
noncomputable def executeCircuit (n : ℕ) (ops : List GateOp) (reset : Bool)
    (sim : ℕ → ℂ) : Except SimError (ℕ → ℂ) :=
  runGates n ops (if reset then initState n else sim)

/-- QuantumCircuit.apply validation and recording: every qubit index must be
inside [0, num_qubits), otherwise ValueError; duplicates are not checked; on
success the (matrix, qubits) pair is appended to the recorded list. -/
def circuitApply (n : ℕ) (gates : List GateOp) (op : GateOp) :
    Except SimError (List GateOp) :=
  if ∀ q ∈ op.2.2, q < n then
    Except.ok (gates ++ [op])
  else
    Except.error SimError.invalidQubitIndex

/-- Probability of measuring 0 on the given qubit: sum of np.abs(amp) ** 2
over the basis states whose qubit-th bit is 0 (measure, lines 171-176). -/
noncomputable def probZero (n q : ℕ) (v : ℕ → ℂ) : ℝ :=
  ∑ i ∈ Finset.range (2 ^ n), if (i >>> q) &&& 1 = 0 then Complex.abs (v i) ^ 2 else 0

/-- Projection of the statevector onto outcome r of the given qubit: keep the
amplitudes whose qubit-th bit equals r, zero the rest (measure, collapse loop). -/
def collapseState (q r : ℕ) (v : ℕ → ℂ) : ℕ → ℂ :=
  fun i => if (i >>> q) &&& 1 = r then v i else 0

/-- L2 norm of the projected statevector (measure, lines 191 and 205). -/
noncomputable def collapseNorm (n q r : ℕ) (v : ℕ → ℂ) : ℝ :=
  Real.sqrt (∑ i ∈ Finset.range (2 ^ n), Complex.abs (collapseState q r v i) ^ 2)

/-- FPGASimulator.measure: range check first; outcome is
int(np.random.random() > prob_0) with the uniform draw modelled by u; the
statevector is projected onto the outcome and renormalized when the norm
exceeds 1e-10, otherwise the engine resets to the all-zero state; the outcome
is returned in both branches. -/
noncomputable def measureQubit (n q : ℕ) (u : ℝ) (v : ℕ → ℂ) :
    Except SimError (ℕ × (ℕ → ℂ)) :=
  if q < n then
    let result : ℕ := if u > probZero n q v then 1 else 0
    let nrm : ℝ := collapseNorm n q result v
    if nrm > 1 / 10 ^ 10 then
      Except.ok (result, fun i => collapseState q result v i / (nrm : ℂ))
    else
      Except.ok (result, initState n)
  else
    Except.error SimError.invalidQubitIndex

/-- Measure a qubit and immediately measure it again on the collapsed state,
with explicit random draws u for the first call and u2 for the second;
returns the pair of outcomes. -/
noncomputable def remeasure (n q : ℕ) (u u2 : ℝ) (v : ℕ → ℂ) :
    Except SimError (ℕ × ℕ) :=
  (measureQubit n q u v).bind fun p =>
    (measureQubit n q u2 p.2).map fun p2 => (p.1, p2.1)

/-- Sum of squared amplitude magnitudes over the 2^n basis states. -/
noncomputable def stateNormSq (n : ℕ) (v : ℕ → ℂ) : ℝ :=
  ∑ i ∈ Finset.range (2 ^ n), Complex.abs (v i) ^ 2

/-- A gate entry function is unitary on dimension m: the conjugate transpose
times the matrix is the identity, entrywise on the first m indices. -/
def IsUnitaryFn (m : ℕ) (g : ℕ → ℕ → ℂ) : Prop :=
  ∀ a b : ℕ, a < m → b < m →
    (∑ c ∈ Finset.range m, (starRingEnd ℂ) (g c a) * g c b) = if a = b then 1 else 0

/-! Gate library (src/simulator/quantum_gates.py). Each function returns the
entries of the numpy array in the source; indices outside the array are 0. -/

/-- Identity gate. -/
def Im : ℕ → ℕ → ℂ := fun i j =>
  match i, j with
  | 0, 0 => 1 | 1, 1 => 1
  | _, _ => 0

/-- Pauli-X gate. -/
def Xm : ℕ → ℕ → ℂ := fun i j =>
  match i, j with
  | 0, 1 => 1 | 1, 0 => 1
  | _, _ => 0

/-- Pauli-Y gate. -/
noncomputable def Ym : ℕ → ℕ → ℂ := fun i j =>
  match i, j with
  | 0, 1 => -Complex.I | 1, 0 => Complex.I
  | _, _ => 0

/-- Pauli-Z gate. -/
def Zm : ℕ → ℕ → ℂ := fun i j =>
  match i, j with
  | 0, 0 => 1 | 1, 1 => -1
  | _, _ => 0

/-- Hadamard gate: (1 / sqrt 2) times the matrix [[1, 1], [1, -1]]. -/
noncomputable def Hm : ℕ → ℕ → ℂ := fun i j =>
  ((1 / Real.sqrt 2 : ℝ) : ℂ) *
    (match i, j with
     | 0, 0 => 1 | 0, 1 => 1 | 1, 0 => 1 | 1, 1 => -1
     | _, _ => 0)

/-- Phase gate S. -/
noncomputable def Sm : ℕ → ℕ → ℂ := fun i j =>
  match i, j with
  | 0, 0 => 1 | 1, 1 => Complex.I
  | _, _ => 0

/-- T gate: the (1,1) entry is exp(i pi / 4). -/
noncomputable def Tm : ℕ → ℕ → ℂ := fun i j =>
  match i, j with
  | 0, 0 => 1 | 1, 1 => Complex.exp (Complex.I * (Real.pi / 4 : ℝ))
  | _, _ => 0

/-- Rotation around the X-axis: c = cos(theta/2) on the diagonal and
s = -i sin(theta/2) off the diagonal. -/
noncomputable def RXm (θ : ℝ) : ℕ → ℕ → ℂ := fun i j =>
  match i, j with
  | 0, 0 => ((Real.cos (θ / 2) : ℝ) : ℂ)
  | 0, 1 => -Complex.I * ((Real.sin (θ / 2) : ℝ) : ℂ)
  | 1, 0 => -Complex.I * ((Real.sin (θ / 2) : ℝ) : ℂ)
  | 1, 1 => ((Real.cos (θ / 2) : ℝ) : ℂ)
  | _, _ => 0

/-- Rotation around the Y-axis. -/
noncomputable def RYm (θ : ℝ) : ℕ → ℕ → ℂ := fun i j =>
  match i, j with
  | 0, 0 => ((Real.cos (θ / 2) : ℝ) : ℂ)
  | 0, 1 => -((Real.sin (θ / 2) : ℝ) : ℂ)
  | 1, 0 => ((Real.sin (θ / 2) : ℝ) : ℂ)
  | 1, 1 => ((Real.cos (θ / 2) : ℝ) : ℂ)
  | _, _ => 0

/-- Rotation around the Z-axis. -/
noncomputable def RZm (θ : ℝ) : ℕ → ℕ → ℂ := fun i j =>
  match i, j with
  | 0, 0 => Complex.exp (-Complex.I * ((θ / 2 : ℝ) : ℂ))
  | 1, 1 => Complex.exp (Complex.I * ((θ / 2 : ℝ) : ℂ))
  | _, _ => 0

/-- Controlled-NOT gate, the constant 4x4 array of the source (the docstring
there says control on the first qubit, target on the second). -/
def CNOTm : ℕ → ℕ → ℂ := fun i j =>
  match i, j with
  | 0, 0 => 1 | 1, 1 => 1 | 2, 3 => 1 | 3, 2 => 1
  | _, _ => 0

/-- Controlled-Z gate. -/
def CZm : ℕ → ℕ → ℂ := fun i j =>
  match i, j with
  | 0, 0 => 1 | 1, 1 => 1 | 2, 2 => 1 | 3, 3 => -1
  | _, _ => 0

/-- SWAP gate. -/
def SWAPm : ℕ → ℕ → ℂ := fun i j =>
  match i, j with
  | 0, 0 => 1 | 1, 2 => 1 | 2, 1 => 1 | 3, 3 => 1
  | _, _ => 0

/-- Controlled-RX gate. -/
noncomputable def CRXm (θ : ℝ) : ℕ → ℕ → ℂ := fun i j =>
  match i, j with
  | 0, 0 => 1 | 1, 1 => 1
  | 2, 2 => ((Real.cos (θ / 2) : ℝ) : ℂ)
  | 2, 3 => -Complex.I * ((Real.sin (θ / 2) : ℝ) : ℂ)
  | 3, 2 => -Complex.I * ((Real.sin (θ / 2) : ℝ) : ℂ)
  | 3, 3 => ((Real.cos (θ / 2) : ℝ) : ℂ)
  | _, _ => 0

/-- Controlled-RY gate. -/
noncomputable def CRYm (θ : ℝ) : ℕ → ℕ → ℂ := fun i j =>
  match i, j with
  | 0, 0 => 1 | 1, 1 => 1
  | 2, 2 => ((Real.cos (θ / 2) : ℝ) : ℂ)
  | 2, 3 => -((Real.sin (θ / 2) : ℝ) : ℂ)
  | 3, 2 => ((Real.sin (θ / 2) : ℝ) : ℂ)
  | 3, 3 => ((Real.cos (θ / 2) : ℝ) : ℂ)
  | _, _ => 0

/-- Controlled-RZ gate. -/
noncomputable def CRZm (θ : ℝ) : ℕ → ℕ → ℂ := fun i j =>
  match i, j with
  | 0, 0 => 1 | 1, 1 => 1
  | 2, 2 => Complex.exp (-Complex.I * ((θ / 2 : ℝ) : ℂ))
  | 3, 3 => Complex.exp (Complex.I * ((θ / 2 : ℝ) : ℂ))
  | _, _ => 0

/-! Helper lemmas about the bit manipulation of the gate expansion. -/

lemma testBit_foldl_lor (qs : List ℕ) (m b : ℕ) :
    Nat.testBit (qs.foldl (fun acc q => acc ||| (1 <<< q)) m) b
      = (Nat.testBit m b || decide (b ∈ qs)) := by
  induction qs generalizing m with
  | nil => simp
  | cons q rest ih =>
    simp only [List.foldl_cons, ih, List.mem_cons, Nat.testBit_lor]
    have h1 : (1 : ℕ) <<< q = 2 ^ q := by
      simpa using Nat.shiftLeft_eq 1 q
    rw [h1, Nat.testBit_two_pow]
    by_cases hm : Nat.testBit m b <;> simp [hm, eq_comm]

lemma affectedMask_testBit (qs : List ℕ) (b : ℕ) :
    Nat.testBit (affectedMask qs) b = decide (b ∈ qs) := by
  simpa [affectedMask] using testBit_foldl_lor qs 0 b

lemma affectedMask_perm {qs1 qs2 : List ℕ} (h : qs1.Perm qs2) :
    affectedMask qs1 = affectedMask qs2 :=
  Nat.eq_of_testBit_eq fun b => by simp [affectedMask_testBit, h.mem_iff]

lemma insertionSort_perm_eq {qs1 qs2 : List ℕ} (h : qs1.Perm qs2) :
    List.insertionSort (fun a b => a ≤ b) qs1 = List.insertionSort (fun a b => a ≤ b) qs2 := by
  have hanti : IsAntisymm ℕ (fun a b => a ≤ b) := ⟨fun a b h1 h2 => Nat.le_antisymm h1 h2⟩
  exact @List.eq_of_perm_of_sorted ℕ (fun a b => a ≤ b) hanti _ _
    (((List.perm_insertionSort _ _).trans h).trans (List.perm_insertionSort _ _).symm)
    (List.sorted_insertionSort _ _) (List.sorted_insertionSort _ _)

/-- C1. The spec's 2-qubit Bell preparation test: the claim says the sequence
apply_gate(H, [0]); apply_gate(CNOT, [0, 1]) from the all-zero state yields
the statevector (1/sqrt 2, 0, 0, 1/sqrt 2).  Evaluating the code at exactly
that input instead yields the product state (1/sqrt 2, 1/sqrt 2, 0, 0): the
sorted, least-significant-first bit packing of _expand_gate_to_full_space
makes qubit 1 the control of the CNOT matrix, so the entangling step never
happens.  The last conjunct shows the two vectors really differ. -/
theorem bell_prep_code_result :
    ((applyGate 2 2 Hm [0] (initState 2)).bind (applyGate 2 4 CNOTm [0, 1])).map
      (fun w => (w 0, w 1, w 2, w 3)) =
      Except.ok (((1 / Real.sqrt 2 : ℝ) : ℂ), ((1 / Real.sqrt 2 : ℝ) : ℂ), (0 : ℂ), (0 : ℂ))
    ∧ ((1 / Real.sqrt 2 : ℝ) : ℂ) ≠ 0 := by
  constructor
  · simp [applyGate, Nat.log2, expandGate, clearMask, affectedMask, extractBits,
      Finset.sum_range_succ, CNOTm, Hm, initState, Except.map, Except.bind, Nat.testBit]
  · have h2 : Real.sqrt 2 ≠ 0 := by
      positivity
    simp [h2]

/-- C2. The claim (and the docstrings of apply_gate and CNOT in the source)
say qubit_indices[0] is the most significant bit of the local sub-index, so
the first listed qubit of CNOT is the control.  Evaluating the code on the
basis state with index 1 (qubit 0 set, qubit 1 clear): under the claimed
convention the control qubit 0 is set, so CNOT must move the amplitude to
index 3; the code instead leaves it at index 1, because it sorts the indices
and gives the first (smallest) qubit the least significant local bit. -/
theorem cnot_first_listed_qubit_run :
    (applyGate 2 4 CNOTm [0, 1] (fun i => if i = 1 then 1 else 0)).map
      (fun w => (w 1, w 3)) = Except.ok ((1 : ℂ), (0 : ℂ)) := by
  simp [applyGate, Nat.log2, expandGate, clearMask, affectedMask, extractBits,
    Finset.sum_range_succ, CNOTm, Except.map, Nat.testBit]

/-- C3 counterexample. apply_gate accepts a duplicated qubit index list and an
out-of-range index without any error: both calls return a new statevector. -/
theorem applyGate_accepts_bad_indices :
    (applyGate 2 4 CNOTm [0, 0] (initState 2)).isOk = true
    ∧ (applyGate 2 2 Hm [5] (initState 2)).isOk = true := by
  constructor <;> simp [applyGate, Nat.log2, Except.isOk, Except.toBool]

/-- C3 amended. The engine's apply_gate performs no qubit-index validation at
all: it either succeeds or raises the gate-size mismatch, never the
invalid-index error; the only index validation lives in QuantumCircuit.apply,
which rejects exactly the lists containing an index outside [0, n) and does
not check for duplicates. -/
theorem applyGate_no_index_validation :
    (∀ (n gateSize : ℕ) (g : ℕ → ℕ → ℂ) (qs : List ℕ) (v : ℕ → ℂ),
      (applyGate n gateSize g qs v).isOk = true
      ∨ applyGate n gateSize g qs v = Except.error SimError.dimensionMismatch)
    ∧ (∀ (n : ℕ) (gates : List GateOp) (op : GateOp),
      circuitApply n gates op = Except.error SimError.invalidQubitIndex
        ↔ ¬ ∀ q ∈ op.2.2, q < n) := by
  constructor
  · intro n gateSize g qs v
    rw [applyGate]
    split
    · left; rfl
    · right; rfl
  · intro n gates op
    rw [circuitApply]
    split
    · rename_i h
      exact iff_of_false (by simp) (not_not_intro h)
    · rename_i h
      simp [h]

/-- C5. apply_gate with a 4x4 matrix but a single qubit index raises the
dimension mismatch (gate size 4 needs 2 indices), and in general the gate-size
validation failure produces the error without any new statevector, so the
amplitude array is left untouched (in the source the raise precedes the
assignment to self.statevector). -/
theorem applyGate_4x4_one_index_rejected :
    (∀ (n : ℕ) (g : ℕ → ℕ → ℂ) (q : ℕ) (v : ℕ → ℂ),
      applyGate n 4 g [q] v = Except.error SimError.dimensionMismatch)
    ∧ (∀ (n gateSize : ℕ) (g : ℕ → ℕ → ℂ) (qs : List ℕ) (v : ℕ → ℂ),
      qs.length ≠ Nat.log2 gateSize →
      applyGate n gateSize g qs v = Except.error SimError.dimensionMismatch) := by
  constructor
  · intro n g q v
    simp [applyGate, Nat.log2]
  · intro n gateSize g qs v h
    rw [applyGate, if_neg h]

/-- C9. execute() with its default reset=True argument replays the recorded
gates from the all-zero state: the result never depends on the simulator's
prior statevector (so two consecutive execute() calls agree), and a circuit
extended by one recorded gate replays as the shorter circuit followed by one
apply_gate, i.e. replay follows insertion order. -/
theorem executeCircuit_reset_replay :
    (∀ (n : ℕ) (ops : List GateOp) (s : ℕ → ℂ),
      executeCircuit n ops true s = runGates n ops (initState n))
    ∧ (∀ (n : ℕ) (ops : List GateOp) (s t : ℕ → ℂ),
      executeCircuit n ops true s = executeCircuit n ops true t)
    ∧ (∀ (n : ℕ) (ops : List GateOp) (op : GateOp) (s : ℕ → ℂ),
      executeCircuit n (ops ++ [op]) true s
        = (executeCircuit n ops true s).bind fun w => applyGate n op.1 op.2.1 op.2.2 w) := by
  refine ⟨fun n ops s => rfl, fun n ops s t => rfl, fun n ops op s => ?_⟩
  simp [executeCircuit, runGates, List.foldl_append]

/-- C10. The statevector produced by apply_gate depends only on the set of
qubit indices, never on their listed order: _expand_gate_to_full_space sorts
the indices before assigning local bit positions and builds the mask with an
order-insensitive fold, so permuting the index list (in particular listing a
two-qubit gate as [a, b] or [b, a]) gives exactly the same result. -/
theorem applyGate_ignores_index_order (n gateSize : ℕ) (g : ℕ → ℕ → ℂ)
    (qs1 qs2 : List ℕ) (v : ℕ → ℂ) (hnd : qs1.Nodup) (hlt : ∀ q ∈ qs1, q < n)
    (hp : qs1.Perm qs2) :
    applyGate n gateSize g qs1 v = applyGate n gateSize g qs2 v := by
  have h1 : affectedMask qs1 = affectedMask qs2 := affectedMask_perm hp
  have h2 : List.insertionSort (fun a b => a ≤ b) qs1
      = List.insertionSort (fun a b => a ≤ b) qs2 := insertionSort_perm_eq hp
  have h3 : qs1.length = qs2.length := hp.length_eq
  simp only [applyGate, expandGate, h1, h2, h3]

/-- C10 witness: applying the CNOT matrix to the qubit lists [0, 1] and
[1, 0] of a 2-qubit engine gives the same result. -/
theorem applyGate_ignores_index_order_witness :
    applyGate 2 4 CNOTm [0, 1] (initState 2) = applyGate 2 4 CNOTm [1, 0] (initState 2) :=
  applyGate_ignores_index_order 2 4 CNOTm [0, 1] [1, 0] (initState 2)
    (by decide) (by decide) (by decide)

/-- C4 counterexample. Measuring qubit 0 of an engine whose statevector is
identically zero (reachable, since apply_gate accepts non-unitary matrices)
hits the degenerate-norm branch: the engine resets to the all-zero state but
returns the measurement outcome as an ordinary ok value, surfacing no error
of any kind to the caller. -/
theorem measure_degenerate_returns_ok :
    measureQubit 1 0 (1 / 3) (fun _ => 0) = Except.ok (1, initState 1) := by
  simp [measureQubit, probZero, collapseNorm, collapseState, Finset.sum_range_succ]

/-- C4 amended. When the norm of the post-projection amplitudes is at most
the 1e-10 threshold, measure resets the engine to the all-zero state and
silently returns the measurement outcome as a normal result: no fault of any
kind is raised (the source has no StateConsistencyFault and the reset branch
falls through to the ordinary return). -/
theorem measure_degenerate_silent (n q : ℕ) (u : ℝ) (v : ℕ → ℂ) (hq : q < n)
    (hnrm : collapseNorm n q (if u > probZero n q v then 1 else 0) v ≤ 1 / 10 ^ 10) :
    measureQubit n q u v
      = Except.ok ((if u > probZero n q v then 1 else 0 : ℕ), initState n) := by
  rw [measureQubit, if_pos hq]
  exact if_neg (not_lt.mpr hnrm)

/-- C4 witness: the amended theorem applied to the zero statevector of a
1-qubit engine with draw 1/2. -/
theorem measure_degenerate_silent_witness :
    measureQubit 1 0 (1 / 2) (fun _ => 0) = Except.ok (1, initState 1) := by
  have h := measure_degenerate_silent 1 0 (1 / 2) (fun _ => 0) (by norm_num)
    (by simp [collapseNorm, collapseState, Finset.sum_range_succ])
  have hp : probZero 1 0 (fun _ => (0 : ℂ)) = 0 := by
    simp [probZero, Finset.sum_range_succ]
  rw [hp] at h
  norm_num at h
  exact h

/-- C8 counterexample. Two concrete failures of "re-measuring the same qubit
returns the same outcome for every draw of the second call": on the 1-qubit
state with amplitude 1 at basis state 1, the first measurement (draw 1/2)
returns 1 and collapses onto outcome 1, yet a second measurement with draw
u = 0 returns 0, because the outcome rule int(u > p0) sends the boundary
draw u = 0 to 0 even though the probability of outcome 0 is exactly 0; and
starting from the zero statevector the first measurement (draw 1/2) returns
1 while resetting to the all-zero state, so the second measurement (draw 1/2)
returns 0. -/
theorem remeasure_differs :
    remeasure 1 0 (1 / 2) 0 (fun i => if i = 1 then 1 else 0) = Except.ok (1, 0)
    ∧ remeasure 1 0 (1 / 2) (1 / 2) (fun _ => 0) = Except.ok (1, 0) := by
  constructor
  · have hprob : probZero 1 0 (fun i => if i = 1 then (1 : ℂ) else 0) = 0 := by
      simp [probZero, Finset.sum_range_succ]
    have hnrm : collapseNorm 1 0 1 (fun i => if i = 1 then (1 : ℂ) else 0) = 1 := by
      simp [collapseNorm, collapseState, Finset.sum_range_succ]
    have h1 : measureQubit 1 0 (1 / 2) (fun i => if i = 1 then 1 else 0)
        = Except.ok (1, fun i => collapseState 0 1 (fun j => if j = 1 then 1 else 0) i) := by
      rw [measureQubit]
      rw [hprob]
      norm_num
      rw [hnrm]
      norm_num
    have hprob2 :
        probZero 1 0 (fun i => collapseState 0 1 (fun j => if j = 1 then (1 : ℂ) else 0) i) = 0 := by
      simp [probZero, collapseState, Finset.sum_range_succ]
    rw [remeasure, h1]
    show (measureQubit 1 0 0 (fun i => collapseState 0 1 (fun j => if j = 1 then 1 else 0) i)).map _ = _
    rw [measureQubit]
    rw [hprob2]
    norm_num
    split_ifs <;> simp [Except.map]
  · have h1 : measureQubit 1 0 (1 / 2) (fun _ => 0) = Except.ok (1, initState 1) := by
      simp [measureQubit, probZero, collapseNorm, collapseState, Finset.sum_range_succ]
    have hprob2 : probZero 1 0 (initState 1) = 1 := by
      simp [probZero, initState, Finset.sum_range_succ]
    rw [remeasure, h1]
    show (measureQubit 1 0 (1 / 2) (initState 1)).map _ = _
    rw [measureQubit]
    rw [hprob2]
    norm_num
    split_ifs <;> simp [Except.map]

/-! Lemmas for the re-measurement behaviour of measure. -/

lemma remeasure_eq (n q : ℕ) (u u2 : ℝ) (v : ℕ → ℂ) (p : ℕ × (ℕ → ℂ))
    (h : measureQubit n q u v = Except.ok p) :
    remeasure n q u u2 v = (measureQubit n q u2 p.2).map fun p2 => (p.1, p2.1) := by
  rw [remeasure, h]
  rfl

lemma probZero_collapse_one_div (n q : ℕ) (v : ℕ → ℂ) (c : ℝ) :
    probZero n q (fun i => collapseState q 1 v i / (c : ℂ)) = 0 := by
  refine Finset.sum_eq_zero fun i _ => ?_
  by_cases hb : (i >>> q) &&& 1 = 0
  · rw [if_pos hb]
    have hz : collapseState q 1 v i = 0 := by
      simp only [collapseState]
      rw [hb]
      simp
    dsimp only
    rw [hz]
    simp
  · rw [if_neg hb]

lemma probZero_collapse_zero_div (n q : ℕ) (v : ℕ → ℂ) (S : ℝ)
    (hS : S = ∑ i ∈ Finset.range (2 ^ n), Complex.abs (collapseState q 0 v i) ^ 2)
    (hSpos : 0 < S) :
    probZero n q (fun i => collapseState q 0 v i / ((Real.sqrt S : ℝ) : ℂ)) = 1 := by
  have habs : ∀ i : ℕ,
      Complex.abs (collapseState q 0 v i / ((Real.sqrt S : ℝ) : ℂ)) ^ 2
        = Complex.abs (collapseState q 0 v i) ^ 2 / S := by
    intro i
    rw [map_div₀ Complex.abs, Complex.abs_ofReal, abs_of_nonneg (Real.sqrt_nonneg S),
      div_pow, Real.sq_sqrt hSpos.le]
  have hterm : ∀ i : ℕ,
      (if (i >>> q) &&& 1 = 0 then
        Complex.abs (collapseState q 0 v i / ((Real.sqrt S : ℝ) : ℂ)) ^ 2 else 0)
        = Complex.abs (collapseState q 0 v i) ^ 2 / S := by
    intro i
    by_cases hb : (i >>> q) &&& 1 = 0
    · rw [if_pos hb, habs]
    · rw [if_neg hb]
      have hz : collapseState q 0 v i = 0 := by
        simp only [collapseState]
        rw [if_neg hb]
      rw [hz]
      simp
  rw [probZero]
  calc ∑ i ∈ Finset.range (2 ^ n),
        (if (i >>> q) &&& 1 = 0 then
          Complex.abs (collapseState q 0 v i / ((Real.sqrt S : ℝ) : ℂ)) ^ 2 else 0)
      = ∑ i ∈ Finset.range (2 ^ n), Complex.abs (collapseState q 0 v i) ^ 2 / S := by
        exact Finset.sum_congr rfl fun i _ => hterm i
    _ = S / S := by rw [← Finset.sum_div, ← hS]
    _ = 1 := div_self hSpos.ne'

/-- C8 amended. If the first measurement's post-projection norm exceeds the
1e-10 threshold (so the collapse path is taken) and the second call's draw
lies strictly inside (0, 1), then re-measuring the same qubit returns the
same outcome as the first measurement, for every first draw u and state v. -/
theorem remeasure_same_outcome (n q : ℕ) (u u2 : ℝ) (v : ℕ → ℂ) (hq : q < n)
    (hnrm : collapseNorm n q (if u > probZero n q v then 1 else 0) v > 1 / 10 ^ 10)
    (hu2a : 0 < u2) (hu2b : u2 < 1) :
    remeasure n q u u2 v
      = Except.ok ((if u > probZero n q v then 1 else 0 : ℕ),
          (if u > probZero n q v then 1 else 0 : ℕ)) := by
  have hok : measureQubit n q u v
      = Except.ok ((if u > probZero n q v then 1 else 0 : ℕ),
          fun i => collapseState q (if u > probZero n q v then 1 else 0) v i
            / ((collapseNorm n q (if u > probZero n q v then 1 else 0) v : ℝ) : ℂ)) := by
    rw [measureQubit, if_pos hq]
    exact if_pos hnrm
  rw [remeasure_eq n q u u2 v _ hok]
  by_cases hr : u > probZero n q v
  · simp only [hr, if_true]
    have hps : probZero n q (fun i => collapseState q 1 v i
        / ((collapseNorm n q 1 v : ℝ) : ℂ)) = 0 := probZero_collapse_one_div n q v _
    rw [measureQubit, if_pos hq, hps]
    rw [if_pos hu2a]
    dsimp only
    split_ifs <;> rfl
  · simp only [hr, if_false]
    have hSpos : 0 < ∑ i ∈ Finset.range (2 ^ n), Complex.abs (collapseState q 0 v i) ^ 2 := by
      have h1 : (0 : ℝ) < collapseNorm n q 0 v := by
        have : (0 : ℝ) < 1 / 10 ^ 10 := by norm_num
        calc (0 : ℝ) < 1 / 10 ^ 10 := this
          _ < collapseNorm n q 0 v := by simpa [hr] using hnrm
      rw [collapseNorm] at h1
      exact Real.sqrt_pos.mp h1
    have hps : probZero n q (fun i => collapseState q 0 v i
        / ((collapseNorm n q 0 v : ℝ) : ℂ)) = 1 := by
      rw [collapseNorm]
      exact probZero_collapse_zero_div n q v _ rfl hSpos
    rw [measureQubit, if_pos hq, hps]
    rw [if_neg (not_lt.mpr hu2b.le)]
    dsimp only
    split_ifs <;> rfl

/-- C8 witness: on the 1-qubit basis state 1 with first draw 1/2 (outcome 1,
healthy norm) and second draw 1/2, both measurements return 1. -/
theorem remeasure_same_outcome_witness :
    remeasure 1 0 (1 / 2) (1 / 2) (fun i => if i = 1 then 1 else 0) = Except.ok (1, 1) := by
  have h := remeasure_same_outcome 1 0 (1 / 2) (1 / 2) (fun i => if i = 1 then 1 else 0)
    (by norm_num)
    (by norm_num [probZero, collapseNorm, collapseState, Finset.sum_range_succ])
    (by norm_num) (by norm_num)
  have hp : probZero 1 0 (fun i => if i = 1 then (1 : ℂ) else 0) = 0 := by
    simp [probZero, Finset.sum_range_succ]
  rw [hp] at h
  norm_num at h
  exact h

/-! Unitarity of the gate library. -/

lemma conj_mul_self_exp (z : ℂ) (hz : z.re = 0) :
    (starRingEnd ℂ) (Complex.exp z) * Complex.exp z = 1 := by
  rw [mul_comm, Complex.mul_conj, ← Complex.sq_abs, Complex.abs_exp, hz, Real.exp_zero]
  norm_num

lemma Im_unitary : IsUnitaryFn 2 Im := by
  intro a b ha hb
  interval_cases a <;> interval_cases b <;> simp [Im, Finset.sum_range_succ]

lemma Xm_unitary : IsUnitaryFn 2 Xm := by
  intro a b ha hb
  interval_cases a <;> interval_cases b <;> simp [Xm, Finset.sum_range_succ]

lemma Ym_unitary : IsUnitaryFn 2 Ym := by
  intro a b ha hb
  interval_cases a <;> interval_cases b <;> simp [Ym, Finset.sum_range_succ]

lemma Zm_unitary : IsUnitaryFn 2 Zm := by
  intro a b ha hb
  interval_cases a <;> interval_cases b <;> simp [Zm, Finset.sum_range_succ]

lemma Hm_unitary : IsUnitaryFn 2 Hm := by
  intro a b ha hb
  have key : ((Real.sqrt 2 : ℝ) : ℂ) ^ 2 = 2 := by
    norm_cast
    exact Real.sq_sqrt (by norm_num)
  interval_cases a <;> interval_cases b <;>
    simp [Hm, Finset.sum_range_succ, map_mul, Complex.conj_ofReal] <;>
    (ring_nf; rw [inv_pow, key]; norm_num)

lemma Sm_unitary : IsUnitaryFn 2 Sm := by
  intro a b ha hb
  interval_cases a <;> interval_cases b <;> simp [Sm, Finset.sum_range_succ]

lemma Tm_unitary : IsUnitaryFn 2 Tm := by
  intro a b ha hb
  have h := conj_mul_self_exp (Complex.I * ((Real.pi : ℂ) / 4)) (by simp)
  interval_cases a <;> interval_cases b <;> simp [Tm, Finset.sum_range_succ, h]

lemma RXm_unitary (θ : ℝ) : IsUnitaryFn 2 (RXm θ) := by
  intro a b ha hb
  interval_cases a <;> interval_cases b <;>
    simp [RXm, Finset.sum_range_succ, map_mul, map_neg, Complex.conj_ofReal,
      Complex.conj_I, -Complex.ofReal_cos, -Complex.ofReal_sin] <;>
    first
      | ring1
      | (ring_nf; rw [Complex.I_sq]; ring_nf; norm_cast;
         nlinarith [Real.sin_sq_add_cos_sq (θ * (1 / 2))])

lemma RYm_unitary (θ : ℝ) : IsUnitaryFn 2 (RYm θ) := by
  intro a b ha hb
  interval_cases a <;> interval_cases b <;>
    simp [RYm, Finset.sum_range_succ, map_mul, map_neg, Complex.conj_ofReal,
      -Complex.ofReal_cos, -Complex.ofReal_sin] <;>
    first
      | ring1
      | (ring_nf; norm_cast; nlinarith [Real.sin_sq_add_cos_sq (θ * (1 / 2))])

lemma RZm_unitary (θ : ℝ) : IsUnitaryFn 2 (RZm θ) := by
  intro a b ha hb
  have h1 := conj_mul_self_exp (-(Complex.I * ((θ : ℂ) / 2))) (by simp)
  have h2 := conj_mul_self_exp (Complex.I * ((θ : ℂ) / 2)) (by simp)
  interval_cases a <;> interval_cases b <;>
    simp [RZm, Finset.sum_range_succ, h1, h2]

lemma CNOTm_unitary : IsUnitaryFn 4 CNOTm := by
  intro a b ha hb
  interval_cases a <;> interval_cases b <;> simp [CNOTm, Finset.sum_range_succ]

lemma CZm_unitary : IsUnitaryFn 4 CZm := by
  intro a b ha hb
  interval_cases a <;> interval_cases b <;> simp [CZm, Finset.sum_range_succ]

lemma SWAPm_unitary : IsUnitaryFn 4 SWAPm := by
  intro a b ha hb
  interval_cases a <;> interval_cases b <;> simp [SWAPm, Finset.sum_range_succ]

lemma CRXm_unitary (θ : ℝ) : IsUnitaryFn 4 (CRXm θ) := by
  intro a b ha hb
  interval_cases a <;> interval_cases b <;>
    simp [CRXm, Finset.sum_range_succ, map_mul, map_neg, Complex.conj_ofReal,
      Complex.conj_I, -Complex.ofReal_cos, -Complex.ofReal_sin] <;>
    first
      | ring1
      | (ring_nf; rw [Complex.I_sq]; ring_nf; norm_cast;
         nlinarith [Real.sin_sq_add_cos_sq (θ * (1 / 2))])

lemma CRYm_unitary (θ : ℝ) : IsUnitaryFn 4 (CRYm θ) := by
  intro a b ha hb
  interval_cases a <;> interval_cases b <;>
    simp [CRYm, Finset.sum_range_succ, map_mul, map_neg, Complex.conj_ofReal,
      -Complex.ofReal_cos, -Complex.ofReal_sin] <;>
    first
      | ring1
      | (ring_nf; norm_cast; nlinarith [Real.sin_sq_add_cos_sq (θ * (1 / 2))])

lemma CRZm_unitary (θ : ℝ) : IsUnitaryFn 4 (CRZm θ) := by
  intro a b ha hb
  have h1 := conj_mul_self_exp (-(Complex.I * ((θ : ℂ) / 2))) (by simp)
  have h2 := conj_mul_self_exp (Complex.I * ((θ : ℂ) / 2)) (by simp)
  interval_cases a <;> interval_cases b <;>
    simp [CRZm, Finset.sum_range_succ, h1, h2]

/-- C7. Every gate the library produces is exactly unitary: for each of the
fixed gates I, X, Y, Z, H, S, T, CNOT, CZ, SWAP and, for every real angle,
the parameterized RX, RY, RZ, CRX, CRY, CRZ, the conjugate transpose times
the gate equals the identity entrywise (exact equality, hence in particular
within the claimed 1e-9 elementwise tolerance). -/
theorem gateLibrary_unitary (θ : ℝ) :
    IsUnitaryFn 2 Im ∧ IsUnitaryFn 2 Xm ∧ IsUnitaryFn 2 Ym ∧ IsUnitaryFn 2 Zm
    ∧ IsUnitaryFn 2 Hm ∧ IsUnitaryFn 2 Sm ∧ IsUnitaryFn 2 Tm
    ∧ IsUnitaryFn 2 (RXm θ) ∧ IsUnitaryFn 2 (RYm θ) ∧ IsUnitaryFn 2 (RZm θ)
    ∧ IsUnitaryFn 4 CNOTm ∧ IsUnitaryFn 4 CZm ∧ IsUnitaryFn 4 SWAPm
    ∧ IsUnitaryFn 4 (CRXm θ) ∧ IsUnitaryFn 4 (CRYm θ) ∧ IsUnitaryFn 4 (CRZm θ) :=
  ⟨Im_unitary, Xm_unitary, Ym_unitary, Zm_unitary, Hm_unitary, Sm_unitary,
   Tm_unitary, RXm_unitary θ, RYm_unitary θ, RZm_unitary θ, CNOTm_unitary,
   CZm_unitary, SWAPm_unitary, CRXm_unitary θ, CRYm_unitary θ, CRZm_unitary θ⟩

/-! Norm preservation of the bit-indexed gate expansion (claim C6). -/

lemma extractBits_lt (l : List ℕ) (x : ℕ) : extractBits l x < 2 ^ l.length := by
  induction l with
  | nil => simp [extractBits]
  | cons q rest ih =>
    rw [extractBits, List.length_cons, pow_succ]
    by_cases h : Nat.testBit x q <;> simp [h] <;> omega

lemma extractBits_testBit (l : List ℕ) (x : ℕ) (p : ℕ) (h : p < l.length) :
    Nat.testBit (extractBits l x) p = Nat.testBit x (l.get ⟨p, h⟩) := by
  induction l generalizing p with
  | nil => simp at h
  | cons q rest ih =>
    match p with
    | 0 =>
      rw [extractBits]
      by_cases hb : Nat.testBit x q <;>
        simp [hb, Nat.testBit_zero, Nat.add_mul_mod_self_left]
    | p + 1 =>
      rw [extractBits, Nat.testBit_succ]
      have h2 : p < rest.length := by
        simpa using Nat.lt_of_succ_lt_succ h
      have hdiv : ((if Nat.testBit x q then 1 else 0) + 2 * extractBits rest x) / 2
          = extractBits rest x := by
        by_cases hb : Nat.testBit x q <;> simp [hb] <;> omega
      rw [hdiv, ih p h2]
      rfl

lemma clearMask_testBit (x m b : ℕ) :
    Nat.testBit (clearMask x m) b = (Nat.testBit x b && !(Nat.testBit m b)) := by
  rw [clearMask, Nat.testBit_xor, Nat.testBit_land]
  cases Nat.testBit x b <;> cases Nat.testBit m b <;> rfl

lemma lt_two_pow_of_high_bits (x n : ℕ) (h : ∀ b, n ≤ b → Nat.testBit x b = false) :
    x < 2 ^ n := by
  have hx : x % 2 ^ n = x := by
    refine Nat.eq_of_testBit_eq fun b => ?_
    rw [Nat.testBit_mod_two_pow]
    by_cases hb : b < n
    · simp [hb]
    · simp [hb, h b (le_of_not_lt hb)]
  calc x = x % 2 ^ n := hx.symm
    _ < 2 ^ n := Nat.mod_lt x (Nat.pos_pow_of_pos n (by norm_num))

/-- Inverse of extractBits: place bit p of c at position l.get p (proof device,
not part of the embedding). -/
def scatterBits : List ℕ → ℕ → ℕ
  | [], _ => 0
  | q :: rest, c => (if Nat.testBit c 0 then 1 <<< q else 0) ||| scatterBits rest (c / 2)

lemma one_shiftLeft_eq (q : ℕ) : (1 : ℕ) <<< q = 2 ^ q := by
  simpa using Nat.shiftLeft_eq 1 q

lemma scatterBits_head_testBit (c q b : ℕ) (hq : b ≠ q) :
    Nat.testBit (if Nat.testBit c 0 then 1 <<< q else 0) b = false := by
  by_cases hc : Nat.testBit c 0
  · rw [if_pos hc, one_shiftLeft_eq, Nat.testBit_two_pow]
    exact decide_eq_false fun h => hq h.symm
  · rw [if_neg hc]
    exact Nat.zero_testBit b

lemma scatterBits_testBit_not_mem (l : List ℕ) (c b : ℕ) (hb : b ∉ l) :
    Nat.testBit (scatterBits l c) b = false := by
  induction l generalizing c with
  | nil => simp [scatterBits]
  | cons q rest ih =>
    rw [scatterBits, Nat.testBit_lor]
    have hq : b ≠ q := fun h => hb (h ▸ List.mem_cons_self q rest)
    rw [scatterBits_head_testBit c q b hq,
      ih (c / 2) (fun h => hb (List.mem_cons_of_mem q h))]
    rfl

lemma scatterBits_testBit_get (l : List ℕ) (hnd : l.Nodup) (c : ℕ) (p : ℕ)
    (hp : p < l.length) :
    Nat.testBit (scatterBits l c) (l.get ⟨p, hp⟩) = Nat.testBit c p := by
  induction l generalizing c p with
  | nil => simp at hp
  | cons q rest ih =>
    have hqrest : q ∉ rest := (List.nodup_cons.mp hnd).1
    have hndrest : rest.Nodup := (List.nodup_cons.mp hnd).2
    match p with
    | 0 =>
      have hget : (q :: rest).get ⟨0, hp⟩ = q := rfl
      rw [hget, scatterBits, Nat.testBit_lor,
        scatterBits_testBit_not_mem rest (c / 2) q hqrest, Bool.or_false]
      by_cases hc : Nat.testBit c 0
      · rw [if_pos hc, one_shiftLeft_eq, Nat.testBit_two_pow]
        simp [hc]
      · rw [if_neg hc, Nat.zero_testBit]
        exact (Bool.not_eq_true _).mp hc |>.symm
    | p + 1 =>
      have hp2 : p < rest.length := by
        simpa using Nat.lt_of_succ_lt_succ hp
      have hget : (q :: rest).get ⟨p + 1, hp⟩ = rest.get ⟨p, hp2⟩ := rfl
      have hne : rest.get ⟨p, hp2⟩ ≠ q := fun h => hqrest (h ▸ List.get_mem rest p hp2)
      rw [hget, scatterBits, Nat.testBit_lor,
        scatterBits_head_testBit c q _ hne, ih hndrest (c / 2) p hp2,
        Nat.testBit_succ]
      rfl

lemma extract_inj (l : List ℕ) (mask : ℕ)
    (hmask : ∀ b, Nat.testBit mask b = decide (b ∈ l)) (x y : ℕ)
    (hclear : clearMask x mask = clearMask y mask)
    (hext : extractBits l x = extractBits l y) : x = y := by
  refine Nat.eq_of_testBit_eq fun b => ?_
  by_cases hb : b ∈ l
  · obtain ⟨p, hp⟩ := List.mem_iff_get.mp hb
    obtain ⟨pp, hlt2⟩ := p
    rw [← hp]
    rw [← extractBits_testBit l x pp hlt2, ← extractBits_testBit l y pp hlt2, hext]
  · have hm : Nat.testBit mask b = false := by
      rw [hmask b]
      exact decide_eq_false hb
    have h1 := congrArg (fun z => Nat.testBit z b) hclear
    simpa [clearMask_testBit, hm] using h1

lemma fiber_mem_lt (n : ℕ) (l : List ℕ) (hlt : ∀ q ∈ l, q < n) (mask : ℕ)
    (hmask : ∀ b, Nat.testBit mask b = decide (b ∈ l)) (i : ℕ) (hi : i < 2 ^ n)
    (c : ℕ) :
    clearMask i mask ||| scatterBits l c < 2 ^ n := by
  refine lt_two_pow_of_high_bits _ n fun b hb => ?_
  have hbl : b ∉ l := fun hmem => absurd (hlt b hmem) (not_lt.mpr hb)
  have hib : Nat.testBit i b = false :=
    Nat.testBit_lt_two_pow (lt_of_lt_of_le hi (Nat.pow_le_pow_right (by norm_num) hb))
  rw [Nat.testBit_lor, clearMask_testBit, hib,
    scatterBits_testBit_not_mem l c b hbl]
  rfl

lemma fiber_clearMask (l : List ℕ) (mask : ℕ)
    (hmask : ∀ b, Nat.testBit mask b = decide (b ∈ l)) (i c : ℕ) :
    clearMask (clearMask i mask ||| scatterBits l c) mask = clearMask i mask := by
  refine Nat.eq_of_testBit_eq fun b => ?_
  by_cases hb : b ∈ l
  · have hm : Nat.testBit mask b = true := by rw [hmask b]; exact decide_eq_true hb
    simp [clearMask_testBit, hm]
  · have hm : Nat.testBit mask b = false := by rw [hmask b]; exact decide_eq_false hb
    rw [clearMask_testBit, Nat.testBit_lor, clearMask_testBit, hm,
      scatterBits_testBit_not_mem l c b hb]
    cases Nat.testBit i b <;> rfl

lemma fiber_extract (l : List ℕ) (hnd : l.Nodup) (mask : ℕ)
    (hmask : ∀ b, Nat.testBit mask b = decide (b ∈ l)) (i c : ℕ)
    (hc : c < 2 ^ l.length) :
    extractBits l (clearMask i mask ||| scatterBits l c) = c := by
  refine Nat.eq_of_testBit_eq fun p => ?_
  by_cases hp : p < l.length
  · rw [extractBits_testBit l _ p hp]
    have hm : Nat.testBit mask (l.get ⟨p, hp⟩) = true := by
      rw [hmask]
      exact decide_eq_true (List.get_mem l p hp)
    rw [Nat.testBit_lor, clearMask_testBit, hm,
      scatterBits_testBit_get l hnd c p hp]
    cases Nat.testBit i (l.get ⟨p, hp⟩) <;> rfl
  · have h1 : Nat.testBit (extractBits l (clearMask i mask ||| scatterBits l c)) p
        = false :=
      Nat.testBit_lt_two_pow (lt_of_lt_of_le (extractBits_lt l _)
        (Nat.pow_le_pow_right (by norm_num) (le_of_not_lt hp)))
    have h2 : Nat.testBit c p = false :=
      Nat.testBit_lt_two_pow (lt_of_lt_of_le hc
        (Nat.pow_le_pow_right (by norm_num) (le_of_not_lt hp)))
    rw [h1, h2]

lemma fiber_sum (n : ℕ) (l : List ℕ) (hnd : l.Nodup) (hlt : ∀ q ∈ l, q < n)
    (mask : ℕ) (hmask : ∀ b, Nat.testBit mask b = decide (b ∈ l)) (i : ℕ)
    (hi : i < 2 ^ n) (f : ℕ → ℂ) :
    ∑ o ∈ (Finset.range (2 ^ n)).filter
        (fun o => clearMask i mask = clearMask o mask), f (extractBits l o)
      = ∑ c ∈ Finset.range (2 ^ l.length), f c := by
  refine Finset.sum_nbij' (fun o => extractBits l o)
    (fun c => clearMask i mask ||| scatterBits l c) ?_ ?_ ?_ ?_ ?_
  · intro o _
    exact Finset.mem_range.mpr (extractBits_lt l o)
  · intro c hc
    refine Finset.mem_filter.mpr ⟨Finset.mem_range.mpr
      (fiber_mem_lt n l hlt mask hmask i hi c), ?_⟩
    exact (fiber_clearMask l mask hmask i c).symm
  · intro o ho
    obtain ⟨_, hcl⟩ := Finset.mem_filter.mp ho
    refine extract_inj l mask hmask _ o ?_ ?_
    · rw [fiber_clearMask l mask hmask i (extractBits l o)]
      exact hcl
    · exact fiber_extract l hnd mask hmask i (extractBits l o) (extractBits_lt l o)
  · intro c hc
    exact fiber_extract l hnd mask hmask i c (Finset.mem_range.mp hc)
  · intro o _
    rfl

lemma expand_orthonormal (n k : ℕ) (g : ℕ → ℕ → ℂ) (qs : List ℕ)
    (hnd : qs.Nodup) (hlt : ∀ q ∈ qs, q < n) (hk : qs.length = k)
    (hg : IsUnitaryFn (2 ^ k) g) (i j : ℕ) (hi : i < 2 ^ n) (hj : j < 2 ^ n) :
    ∑ o ∈ Finset.range (2 ^ n),
        (starRingEnd ℂ) (expandGate g qs o i) * expandGate g qs o j
      = if i = j then 1 else 0 := by
  set l := List.insertionSort (fun a b => a ≤ b) qs with hl
  set m := affectedMask qs with hm
  have hperm : l.Perm qs := List.perm_insertionSort _ qs
  have hnd_l : l.Nodup := hperm.nodup_iff.mpr hnd
  have hlt_l : ∀ q ∈ l, q < n := fun q hq => hlt q (hperm.mem_iff.mp hq)
  have hlen : l.length = k := hperm.length_eq.trans hk
  have hmask : ∀ b, Nat.testBit m b = decide (b ∈ l) := by
    intro b
    rw [hm, affectedMask_testBit]
    exact decide_eq_decide.mpr hperm.mem_iff.symm
  by_cases hij : clearMask i m = clearMask j m
  · have hterm : ∀ o ∈ Finset.range (2 ^ n),
        (starRingEnd ℂ) (expandGate g qs o i) * expandGate g qs o j
          = if clearMask i m = clearMask o m then
              (starRingEnd ℂ) (g (extractBits l o) (extractBits l i))
                * g (extractBits l o) (extractBits l j)
            else 0 := by
      intro o _
      simp only [expandGate, ← hm, ← hl]
      by_cases h1 : clearMask i m = clearMask o m
      · have h2 : clearMask j m = clearMask o m := hij.symm.trans h1
        rw [if_pos h1, if_pos h2, if_pos h1]
      · have h2 : ¬ clearMask j m = clearMask o m := fun h => h1 (hij.trans h)
        rw [if_neg h1, if_neg h2, if_neg h1]
        simp
    rw [Finset.sum_congr rfl hterm, ← Finset.sum_filter]
    rw [fiber_sum n l hnd_l hlt_l m hmask i hi
      (fun c => (starRingEnd ℂ) (g c (extractBits l i)) * g c (extractBits l j))]
    rw [hlen]
    have hi2 : extractBits l i < 2 ^ k := hlen ▸ extractBits_lt l i
    have hj2 : extractBits l j < 2 ^ k := hlen ▸ extractBits_lt l j
    rw [hg (extractBits l i) (extractBits l j) hi2 hj2]
    by_cases hext : extractBits l i = extractBits l j
    · have hijeq : i = j := extract_inj l m hmask i j hij hext
      rw [if_pos hext, if_pos hijeq]
    · have hne : i ≠ j := fun h => hext (by rw [h])
      rw [if_neg hext, if_neg hne]
  · have hzero : ∀ o ∈ Finset.range (2 ^ n),
        (starRingEnd ℂ) (expandGate g qs o i) * expandGate g qs o j = 0 := by
      intro o _
      simp only [expandGate, ← hm, ← hl]
      by_cases h1 : clearMask i m = clearMask o m
      · have h2 : ¬ clearMask j m = clearMask o m := fun h => hij (h1.trans h.symm)
        rw [if_neg h2, mul_zero]
      · rw [if_neg h1]
        simp
    have hne : i ≠ j := fun h => hij (by rw [h])
    rw [Finset.sum_eq_zero hzero, if_neg hne]

lemma conj_mul_self (z : ℂ) :
    (starRingEnd ℂ) z * z = ((Complex.abs z ^ 2 : ℝ) : ℂ) := by
  rw [mul_comm, Complex.mul_conj, Complex.sq_abs]

lemma applyGate_preserves_normSq (n k : ℕ) (g : ℕ → ℕ → ℂ) (qs : List ℕ)
    (hnd : qs.Nodup) (hlt : ∀ q ∈ qs, q < n) (hk : qs.length = k)
    (hg : IsUnitaryFn (2 ^ k) g) (v : ℕ → ℂ) :
    ∃ w, applyGate n (2 ^ k) g qs v = Except.ok w
      ∧ stateNormSq n w = stateNormSq n v := by
  have hcond : qs.length = Nat.log2 (2 ^ k) := by
    rw [Nat.log2_two_pow]
    exact hk
  refine ⟨fun o => ∑ i ∈ Finset.range (2 ^ n), expandGate g qs o i * v i,
    by rw [applyGate, if_pos hcond], ?_⟩
  have key : ((stateNormSq n (fun o => ∑ i ∈ Finset.range (2 ^ n),
        expandGate g qs o i * v i) : ℝ) : ℂ) = ((stateNormSq n v : ℝ) : ℂ) := by
    rw [stateNormSq, stateNormSq, Complex.ofReal_sum, Complex.ofReal_sum]
    calc ∑ o ∈ Finset.range (2 ^ n),
          ((Complex.abs (∑ i ∈ Finset.range (2 ^ n), expandGate g qs o i * v i) ^ 2 : ℝ) : ℂ)
        = ∑ o ∈ Finset.range (2 ^ n),
            (starRingEnd ℂ) (∑ i ∈ Finset.range (2 ^ n), expandGate g qs o i * v i)
              * (∑ j ∈ Finset.range (2 ^ n), expandGate g qs o j * v j) := by
          exact Finset.sum_congr rfl fun o _ => (conj_mul_self _).symm
      _ = ∑ o ∈ Finset.range (2 ^ n), ∑ i ∈ Finset.range (2 ^ n), ∑ j ∈ Finset.range (2 ^ n),
            ((starRingEnd ℂ) (expandGate g qs o i) * (starRingEnd ℂ) (v i))
              * (expandGate g qs o j * v j) := by
          refine Finset.sum_congr rfl fun o _ => ?_
          rw [map_sum, Finset.sum_mul_sum]
          exact Finset.sum_congr rfl fun i _ => Finset.sum_congr rfl fun j _ => by
            rw [map_mul]
      _ = ∑ i ∈ Finset.range (2 ^ n), ∑ j ∈ Finset.range (2 ^ n),
            ((starRingEnd ℂ) (v i) * v j) * ∑ o ∈ Finset.range (2 ^ n),
              (starRingEnd ℂ) (expandGate g qs o i) * expandGate g qs o j := by
          rw [Finset.sum_comm]
          refine Finset.sum_congr rfl fun i _ => ?_
          rw [Finset.sum_comm]
          refine Finset.sum_congr rfl fun j _ => ?_
          rw [Finset.mul_sum]
          exact Finset.sum_congr rfl fun o _ => by ring
      _ = ∑ i ∈ Finset.range (2 ^ n), ∑ j ∈ Finset.range (2 ^ n),
            ((starRingEnd ℂ) (v i) * v j) * (if i = j then 1 else 0) := by
          refine Finset.sum_congr rfl fun i hi2 => Finset.sum_congr rfl fun j hj2 => ?_
          rw [expand_orthonormal n k g qs hnd hlt hk hg i j
            (Finset.mem_range.mp hi2) (Finset.mem_range.mp hj2)]
      _ = ∑ i ∈ Finset.range (2 ^ n), (starRingEnd ℂ) (v i) * v i := by
          refine Finset.sum_congr rfl fun i hi2 => ?_
          simp only [mul_ite, mul_one, mul_zero]
          rw [Finset.sum_ite_eq]
          rw [if_pos hi2]
      _ = ∑ i ∈ Finset.range (2 ^ n), ((Complex.abs (v i) ^ 2 : ℝ) : ℂ) :=
          Finset.sum_congr rfl fun i _ => conj_mul_self _
  exact Complex.ofReal_inj.mp key

lemma runGates_cons (n : ℕ) (op : GateOp) (rest : List GateOp) (w v : ℕ → ℂ)
    (h : applyGate n op.1 op.2.1 op.2.2 v = Except.ok w) :
    runGates n (op :: rest) v = runGates n rest w := by
  rw [runGates, runGates, List.foldl_cons]
  have h0 : (Except.ok v).bind (fun s => applyGate n op.1 op.2.1 op.2.2 s)
      = applyGate n op.1 op.2.1 op.2.2 v := rfl
  rw [h0, h]

lemma runGates_preserves_norm (n : ℕ) (ops : List GateOp) :
    (∀ op ∈ ops, op.1 = 2 ^ op.2.2.length ∧ op.2.2.Nodup
      ∧ (∀ q ∈ op.2.2, q < n) ∧ IsUnitaryFn op.1 op.2.1) →
    ∀ v : ℕ → ℂ, stateNormSq n v = 1 →
    ∃ w, runGates n ops v = Except.ok w ∧ stateNormSq n w = 1 := by
  induction ops with
  | nil =>
    intro _ v hv
    exact ⟨v, rfl, hv⟩
  | cons op rest ih =>
    intro hops v hv
    obtain ⟨hsz, hnd, hlt, hg⟩ := hops op (List.mem_cons_self op rest)
    obtain ⟨w1, hw1, hn1⟩ := applyGate_preserves_normSq n op.2.2.length op.2.1
      op.2.2 hnd hlt rfl (hsz ▸ hg) v
    have hw2 : applyGate n op.1 op.2.1 op.2.2 v = Except.ok w1 := by
      rw [hsz]
      exact hw1
    obtain ⟨w, hw, hn⟩ := ih (fun o ho => hops o (List.mem_cons_of_mem op ho)) w1
      (hn1.trans hv)
    exact ⟨w, (runGates_cons n op rest w1 v hw2).trans hw, hn⟩

lemma initState_normSq (n : ℕ) : stateNormSq n (initState n) = 1 := by
  rw [stateNormSq]
  rw [Finset.sum_eq_single 0 (fun b _ hb => by simp [initState, hb])
    (fun h => absurd (Finset.mem_range.mpr (Nat.pos_pow_of_pos n (by norm_num))) h)]
  simp [initState]

/-- C6. Starting from the all-zero basis state, replaying any sequence of
apply_gate calls whose matrices are unitary (of size 2^k with k matching the
index-list length) and whose qubit index lists are duplicate-free and inside
[0, n) succeeds and leaves the sum of squared amplitude magnitudes exactly 1
(hence within the claimed 1e-9 of 1); applied to every prefix of a sequence,
this is the invariant after each call. -/
theorem applyGate_sequence_norm (n : ℕ) (ops : List GateOp)
    (hops : ∀ op ∈ ops, op.1 = 2 ^ op.2.2.length ∧ op.2.2.Nodup
      ∧ (∀ q ∈ op.2.2, q < n) ∧ IsUnitaryFn op.1 op.2.1) :
    (runGates n ops (initState n)).map (stateNormSq n) = Except.ok 1 := by
  obtain ⟨w, hw, hn⟩ := runGates_preserves_norm n ops hops (initState n)
    (initState_normSq n)
  rw [hw]
  simp [Except.map, hn]

theorem applyGate_sequence_norm_witness :
    (runGates 1 ([((2 : ℕ), Xm, [0])] : List GateOp) (initState 1)).map
      (stateNormSq 1) = Except.ok 1 := by
  refine applyGate_sequence_norm 1 _ ?_
  intro op hop
  simp only [List.mem_singleton] at hop
  subst hop
  exact ⟨by norm_num, by decide, by simp, Xm_unitary⟩
